import Mathlib

/-!
Verification of the shortcut registry, normalization/matching engine and
dispatch state machine of the `mission-control` desktop application
(Rust sources under `src/second-brain/app/src-tauri/src/desktop/`).

Strings are modelled as lists of characters (`Str`).  Rust's
`str::to_lowercase` is modelled by `Char.toLower` applied pointwise, which
agrees with Rust on ASCII (all shortcut strings appearing in the program
are ASCII).  Rust's `HashMap<String, String>` is modelled as an
association list with unique keys whose iteration order is the insertion
order (the real iteration order is unspecified; the spec itself declares
it unspecified).  Fallible host calls (shortcut parsing, OS bind/unbind,
window queries) are modelled by explicit boolean oracle arguments.
-/

/-- Character strings, modelled as lists of characters. -/
abbrev Str := List Char

/-- Coercion from Lean string literals into the model representation. -/
def str (s : String) : Str := s.toList

/-- Model of Rust's `str::to_lowercase` (ASCII fragment). -/
def lowerStr (s : Str) : Str := s.map Char.toLower

/-- Does `pat` occur at the very start of `s`?  (Both the fast-path
`starts_with` logic and the replace loop need this.) -/
def startsWith : Str → Str → Bool
  | [], _ => true
  | _ :: _, [] => false
  | a :: as, b :: bs => a = b && startsWith as bs

/-- Model of Rust's `str::contains` for a substring pattern. -/
def containsStr (s pat : Str) : Bool :=
  startsWith pat s ||
    match s with
    | [] => false
    | _ :: t => containsStr t pat

/-- Fuel-indexed engine of Rust's `str::replace`: replaces all
non-overlapping occurrences of `pat` by `repl`, scanning left to right.
One unit of fuel is spent per step; every step consumes at least one
input character (the patterns used in the program are nonempty), so fuel
equal to the length of the input is always sufficient. -/
def replaceFuel (pat repl : Str) : Nat → Str → Str
  | 0, s => s
  | _ + 1, [] => []
  | fuel + 1, c :: rest =>
    if startsWith pat (c :: rest) then
      repl ++ replaceFuel pat repl fuel ((c :: rest).drop pat.length)
    else
      c :: replaceFuel pat repl fuel rest

/-- Model of Rust's `str::replace` (all non-overlapping occurrences,
left to right). -/
def replaceStr (pat repl s : Str) : Str := replaceFuel pat repl s.length s

/-- Model of Rust's `str::split('+')`: splits on a separator character,
keeping empty segments; the result is always nonempty. -/
def splitOnChar (c : Char) : Str → List Str
  | [] => [[]]
  | a :: rest =>
    if a = c then
      [] :: splitOnChar c rest
    else
      match splitOnChar c rest with
      | [] => [[a]]
      | h :: t => (a :: h) :: t

/-- Model of `Vec::join(sep)` on string pieces. -/
def joinSep (sep : Str) : List Str → Str
  | [] => []
  | [x] => x
  | x :: xs => x ++ sep ++ joinSep sep xs

/-- Byte-order (here: codepoint-order) lexicographic comparison on
strings, as used by Rust's `Vec::sort` on string slices.  For UTF-8 the
byte order coincides with the codepoint order. -/
def strLe : Str → Str → Bool
  | [], _ => true
  | _ :: _, [] => false
  | a :: as, b :: bs =>
    if a.toNat < b.toNat then true
    else if b.toNat < a.toNat then false
    else strLe as bs

/-- Insert an element into a (sorted) list, keeping earlier equal
elements first.  Helper for the stable sort below. -/
def insertSorted (x : Str) : List Str → List Str
  | [] => [x]
  | y :: ys => if strLe x y then x :: y :: ys else y :: insertSorted x ys

/-- Stable insertion sort by `strLe`; on a total order it computes the
same result as Rust's (stable) `Vec::sort`. -/
def sortStrs : List Str → List Str
  | [] => []
  | x :: xs => insertSorted x (sortStrs xs)

/-- Modifier-sorting final step of the normalizer in
`setup.rs::shortcuts_match`: split on the plus character; if there is
more than one part, sort all parts but the last and rejoin. -/
def sortModifiers (n : Str) : Str :=
  let parts := splitOnChar '+' n
  if parts.length > 1 then
    joinSep (str "+") (sortStrs parts.dropLast) ++ str "+" ++ parts.getLastD []
  else
    n

/-- Replacement chain of the normalizer in `setup.rs::shortcuts_match`,
applied after lowercasing, in source order. -/
def replaceChain (s : Str) : Str :=
  let n := replaceStr (str "commandorcontrol") (str "control") s
  let n := replaceStr (str "key") [] n
  let n := replaceStr (str "shift+") (str "shift+") n
  let n := replaceStr (str "control+") (str "control+") n
  let n := replaceStr (str "alt+") (str "alt+") n
  let n := replaceStr (str "cmd+") (str "control+") n
  replaceStr (str "command+") (str "control+") n

/-- The shortcut normalizer: the `normalize` closure defined inside
`shortcuts_match` in `setup.rs` (lowercase, alias replacements, removal
of the literal substring "key", then modifier sorting). -/
def normalizeShortcut (s : Str) : Str :=
  sortModifiers (replaceChain (lowerStr s))

/-- Model of `setup.rs::shortcuts_match`: two shortcut strings match iff
their normalized forms are equal. -/
def shortcuts_match (actual registered : Str) : Bool :=
  decide (normalizeShortcut actual = normalizeShortcut registered)


/-! ## Shortcut registry (`hotkey.rs`) -/

/-- The registry entry list.  Models the process-wide
`REGISTERED_SHORTCUTS : HashMap<String, String>`; keys are kept unique
and the (unspecified) iteration order is modelled as insertion order. -/
abbrev Registry := List (Str × Str)

/-- Lookup by exact key, as `HashMap::get`. -/
def lookupKV (k : Str) : Registry → Option Str
  | [] => none
  | (k', v) :: rest => if k' = k then some v else lookupKV k rest

/-- Insert, as `HashMap::insert`: replaces the value of an existing key
in place, otherwise appends a fresh entry. -/
def insertKV (k v : Str) (m : Registry) : Registry :=
  if m.any (fun p => p.1 = k) then
    m.map (fun p => if p.1 = k then (k, v) else p)
  else
    m ++ [(k, v)]

/-- Remove, as `HashMap::remove`. -/
def removeKV (k : Str) (m : Registry) : Registry :=
  m.filter (fun p => ¬ p.1 = k)

/-- Text-selection monitor state (`text_selection.rs::TextSelectionMonitor`). -/
structure TextSelectionMonitor where
  enabled : Bool
  trigger_modifier : Str
deriving DecidableEq, Repr

/-- Initial monitor state (`TextSelectionMonitor::new`). -/
def TextSelectionMonitor.new : TextSelectionMonitor :=
  { enabled := false, trigger_modifier := str "ctrl" }

/-- The shared mutable state of the dispatch subsystem: the shortcut
registry plus the text-selection monitor. -/
structure DispatchState where
  registry : Registry
  monitor : TextSelectionMonitor
deriving DecidableEq, Repr

/-- Process start state: empty registry, monitoring disabled. -/
def initState : DispatchState :=
  { registry := [], monitor := TextSelectionMonitor.new }

/-- Model of `text_selection.rs::is_text_selection_enabled_for`. -/
def is_text_selection_enabled_for (st : DispatchState) (modifier : Str) : Bool :=
  st.monitor.enabled && st.monitor.trigger_modifier = modifier

/-- Model of `hotkey.rs::get_registered_shortcuts` (the snapshot the
dispatch handler and `list_registered` read). -/
def get_registered_shortcuts (st : DispatchState) : Registry :=
  st.registry

/-- Model of `hotkey.rs::register_hotkey`.  `parseOk` is the outcome of
`shortcut.parse::<Shortcut>()` and `osOk` the outcome of the OS-level
`register` call; both are environment oracles.  Returns the new state
and whether the command returned `Ok`.  On success the shortcut is
stored lowercased. -/
def register_hotkey (st : DispatchState) (shortcut command : Str)
    (parseOk osOk : Bool) : DispatchState × Bool :=
  if !parseOk then (st, false)
  else if !osOk then (st, false)
  else ({ st with registry := insertKV (lowerStr shortcut) command st.registry }, true)

/-- Model of `hotkey.rs::unregister_hotkey`.  Note the source applies
`?` to the OS unregister call before touching the local map: on OS
failure it returns early and the local entry is NOT removed. -/
def unregister_hotkey (st : DispatchState) (shortcut : Str)
    (parseOk osOk : Bool) : DispatchState × Bool :=
  if !parseOk then (st, false)
  else if !osOk then (st, false)
  else ({ st with registry := removeKV (lowerStr shortcut) st.registry }, true)

/-- Model of `hotkey.rs::register_shortcut_command` (the raw "remember
this binding" call): inserts the lowercased key without touching the OS
facility. -/
def register_shortcut_command (st : DispatchState) (shortcut command : Str) :
    DispatchState :=
  { st with registry := insertKV (lowerStr shortcut) command st.registry }

/-- Model of `hotkey.rs::setup_default_shortcuts`: tries to bind
"Shift+Space" to quicknote and "Alt+Space" to quickai; each is stored
(lowercased) only when its parse and OS bind both succeed. -/
def setup_default_shortcuts (st : DispatchState)
    (parseOk1 osOk1 parseOk2 osOk2 : Bool) : DispatchState × Bool :=
  let st1 :=
    if parseOk1 && osOk1 then
      { st with registry := insertKV (lowerStr (str "Shift+Space")) (str "quicknote") st.registry }
    else st
  let st2 :=
    if parseOk2 && osOk2 then
      { st1 with registry := insertKV (lowerStr (str "Alt+Space")) (str "quickai") st1.registry }
    else st1
  (st2, true)

/-- The trigger shortcut string chosen in
`text_selection.rs::setup_text_selection_monitoring` for a modifier. -/
def triggerShortcutFor (modifier : Str) : Str :=
  if modifier = str "ctrl" then str "Control+Backquote"
  else if modifier = str "shift" then str "Shift+Backquote"
  else if modifier = str "alt" then str "Alt+Backquote"
  else str "Control+Backquote"

/-- Model of `text_selection.rs::setup_text_selection_monitoring`.
Enabling sets the monitor state first, then (on successful parse and OS
bind) remembers the lowercased trigger shortcut as the "text-selection"
command.  Disabling clears only the `enabled` flag and unbinds the OS
shortcut; it does NOT remove the registry entry. -/
def setup_text_selection_monitoring (st : DispatchState)
    (enabled : Bool) (trigger_modifier : Str)
    (parseOk osOk : Bool) : DispatchState × Bool :=
  if enabled then
    let st := { st with monitor := { enabled := true, trigger_modifier := trigger_modifier } }
    let shortcut_str := triggerShortcutFor trigger_modifier
    if !parseOk then (st, false)
    else if !osOk then (st, false)
    else (register_shortcut_command st (lowerStr shortcut_str) (str "text-selection"), true)
  else
    let st := { st with monitor := { st.monitor with enabled := false } }
    (st, true)

/-! ## Dispatch handler (`setup.rs::create_global_shortcut_handler`) -/

/-- The externally observable action the handler performs on a pressed
shortcut.  The two text-selection constructors distinguish the two call
sites of `handle_text_selection`: the bare-modifier fast path at the top
of the handler versus dispatch of a registry entry whose command is
"text-selection". -/
inductive DispatchAction where
  | textSelectionFast
  | textSelectionCmd
  | toggleQuicknote
  | toggleQuickai
  | toggleQuicktool
  | noAction
deriving DecidableEq, Repr

/-- The fixed command table of the handler (shared by the direct-match
and fuzzy-match arms): known command names map to their action; any
other command is logged and ignored (`none`). -/
def commandAction (command : Str) : Option DispatchAction :=
  if command = str "quicknote" then some .toggleQuicknote
  else if command = str "quickai" then some .toggleQuickai
  else if command = str "quicktool" then some .toggleQuicktool
  else if command = str "text-selection" then some .textSelectionCmd
  else none

/-- The fuzzy-match loop of the handler: scan the registry in iteration
order; on a `shortcuts_match` hit with a known command, perform it; a
hit with an unknown command only logs and the loop continues. -/
def fuzzyLoop (press : Str) : Registry → DispatchAction
  | [] => .noAction
  | (k, c) :: rest =>
    if shortcuts_match press k then
      match commandAction c with
      | some a => a
      | none => fuzzyLoop press rest
    else
      fuzzyLoop press rest

/-- Registry consultation of the handler: direct lookup of the
lowercased press string first; a direct hit with a known command is
performed; otherwise (no hit, or a hit with an unknown command) control
falls through to the fuzzy-match loop. -/
def lookupDispatch (st : DispatchState) (press : Str) : DispatchAction :=
  match lookupKV (lowerStr press) (get_registered_shortcuts st) with
  | some c =>
    match commandAction c with
    | some a => a
    | none => fuzzyLoop press (get_registered_shortcuts st)
  | none => fuzzyLoop press (get_registered_shortcuts st)

/-- Does the pressed string contain one of the platform spellings of the
backtick/grave key? -/
def containsGrave (press : Str) : Bool :=
  containsStr press (str "`") || containsStr press (str "Backquote") ||
    containsStr press (str "Grave")

/-- Model of the handler returned by
`setup.rs::create_global_shortcut_handler`, for a `Pressed` event with
raw shortcut string `press`.  First the three-armed `else if` chain of
bare-modifier text-selection triggers (Control, then Shift, then Alt);
an arm whose modifier is contained in the press string is entered even
when monitoring is not enabled for it, in which case the chain is left
and the registry is consulted. -/
def global_shortcut_handler (st : DispatchState) (press : Str) : DispatchAction :=
  if containsStr press (str "Control") && containsGrave press then
    if is_text_selection_enabled_for st (str "ctrl") then .textSelectionFast
    else lookupDispatch st press
  else if containsStr press (str "Shift") && containsGrave press then
    if is_text_selection_enabled_for st (str "shift") then .textSelectionFast
    else lookupDispatch st press
  else if containsStr press (str "Alt") && containsGrave press then
    if is_text_selection_enabled_for st (str "alt") then .textSelectionFast
    else lookupDispatch st press
  else
    lookupDispatch st press

/-- Did the handler invoke the selection-capture path
(`handle_text_selection`) — at either of its two call sites? -/
def invokesTextSelection (a : DispatchAction) : Prop :=
  a = .textSelectionFast ∨ a = .textSelectionCmd

/-! ## Operation sequences and reachable states -/

/-- The state-mutating operations of the subsystem, with their
environment oracles. -/
inductive Op where
  | reg (shortcut command : Str) (parseOk osOk : Bool)
  | unreg (shortcut : Str) (parseOk osOk : Bool)
  | remember (shortcut command : Str)
  | defaults (parseOk1 osOk1 parseOk2 osOk2 : Bool)
  | setupTS (enabled : Bool) (trigger_modifier : Str) (parseOk osOk : Bool)
deriving DecidableEq, Repr

/-- One step of the subsystem (results of the fallible commands are
discarded here; the theorems about them take them from the command
functions directly). -/
def stepOp (st : DispatchState) : Op → DispatchState
  | .reg s c p o => (register_hotkey st s c p o).1
  | .unreg s p o => (unregister_hotkey st s p o).1
  | .remember s c => register_shortcut_command st s c
  | .defaults p1 o1 p2 o2 => (setup_default_shortcuts st p1 o1 p2 o2).1
  | .setupTS e m p o => (setup_text_selection_monitoring st e m p o).1

/-- State reached from process start by a sequence of operations. -/
def runOps (ops : List Op) : DispatchState :=
  ops.foldl stepOp initState


/-! ## Window toggle controller (`window.rs`) -/

/-- Observable state of one host window that exists; an absent window is
`none` at the call sites below. -/
structure WindowState where
  visible : Bool
  focused : Bool
deriving DecidableEq, Repr

/-- Model of `window.rs::toggle_window`.  `w` is the current window for
the label (`none` when the host has no such window); `visFails` tells
whether the host's `is_visible` query returns an error.  Returns the new
window state and whether the function returned `Ok`.  Visible windows
are hidden; hidden windows — and windows whose visibility cannot be
determined — are shown and focused; an absent window is an error. -/
def toggle_window (w : Option WindowState) (visFails : Bool) :
    Option WindowState × Bool :=
  match w with
  | some win =>
    if !visFails && win.visible then
      (some { win with visible := false }, true)
    else
      (some { win with visible := true, focused := true }, true)
  | none => (none, false)

/-- Model of `window.rs::create_quick_window`: the builder creates the
window `.visible(true).focused(true)`. -/
def create_quick_window : Option WindowState :=
  some { visible := true, focused := true }

/-- Model of `window.rs::toggle_quicknote_window` (and of the identical
logic in `toggle_quickai_window` / `toggle_quicktool_window`): toggle
the existing window; when that fails because the window is absent,
create it visible and focused. -/
def toggle_quicknote_window (w : Option WindowState) (visFails : Bool) :
    Option WindowState :=
  match toggle_window w visFails with
  | (w', true) => w'
  | (_, false) => create_quick_window

/-- Model of `window.rs::toggle_editor_window` for the main window.
`visFails` and `focusFails` tell whether the host's `is_visible` and
`is_focused` queries fail; a failed focus query is treated as "not
focused" (`unwrap_or(false)`).  Returns the new window state, whether
the call returned `Ok`, and whether the "quicknote-triggered" event was
emitted. -/
def toggle_editor_window (w : Option WindowState) (visFails focusFails : Bool) :
    Option WindowState × Bool × Bool :=
  match w with
  | none => (none, false, false)
  | some win =>
    if !visFails && win.visible then
      if !focusFails && win.focused then
        (some { win with visible := false }, true, false)
      else
        (some { win with focused := true }, true, true)
    else
      (some { win with visible := true, focused := true }, true, true)

/-- Model of `window.rs::resize_quicknote_window`: with the window
present, width is fixed at 600 and the requested height is clamped into
[100, 600]; heights are logical units, modelled as rationals.  Returns
the size passed to `set_size` (`none` when the window is absent and the
call errors). -/
def resize_quicknote_window (w : Option WindowState) (height : ℚ) :
    Option (ℚ × ℚ) :=
  match w with
  | some _ => some (600, min (max height 100) 600)
  | none => none

/-- Model of `window.rs::resize_quickai_window`: identical clamping,
same fixed width of 600. -/
def resize_quickai_window (w : Option WindowState) (height : ℚ) :
    Option (ℚ × ℚ) :=
  match w with
  | some _ => some (600, min (max height 100) 600)
  | none => none


/-! ## Derived definitions used by the theorems -/

/-- A string is lowercase-fixed when each of its characters is fixed by
lowercasing. -/
def LowerFixed (s : Str) : Prop := ∀ c ∈ s, c.toLower = c

instance decidableLowerFixed (s : Str) : Decidable (LowerFixed s) :=
  List.decidableBAll _ s

/-- Sortedness with respect to `strLe`. -/
def SortedLe (l : List Str) : Prop := l.Pairwise (fun a b => strLe a b = true)

/-- The keys of a registry, in iteration order. -/
def keysOf (m : Registry) : List Str := m.map Prod.fst

/-- Invariant of the dispatch state: registry keys are unique and each
key is fixed by lowercasing. -/
def StInv (st : DispatchState) : Prop :=
  (keysOf st.registry).Nodup ∧ ∀ k ∈ keysOf st.registry, lowerStr k = k

/-- The modifier whose enablement the fast-path chain consults: the
first of Control, Shift, Alt contained in the pressed string. -/
def fastPathModifier (press : Str) : Option Str :=
  if containsStr press (str "Control") then some (str "ctrl")
  else if containsStr press (str "Shift") then some (str "shift")
  else if containsStr press (str "Alt") then some (str "alt")
  else none

/-- The first registry entry (in iteration order) whose key
fuzzy-matches the pressed string. -/
def findFuzzy (press : Str) : Registry → Option (Str × Str)
  | [] => none
  | (k, c) :: rest =>
    if shortcuts_match press k then some (k, c) else findFuzzy press rest

/-- The first registry entry (in iteration order) whose key
fuzzy-matches the pressed string and whose command is known. -/
def findFuzzyKnown (press : Str) : Registry → Option (Str × Str)
  | [] => none
  | (k, c) :: rest =>
    if shortcuts_match press k && (commandAction c).isSome then some (k, c)
    else findFuzzyKnown press rest

/-! ## Helper lemmas: characters and lowercasing -/

theorem char_toNat_ofNat {n : Nat} (h : n.isValidChar) : (Char.ofNat n).toNat = n := by
  simp [Char.ofNat, dif_pos h, Char.ofNatAux, Char.toNat, UInt32.toNat, BitVec.toNat_ofNatLt]

theorem Char.toLower_toLower (c : Char) : c.toLower.toLower = c.toLower := by
  unfold Char.toLower
  by_cases h : c.toNat ≥ 65 ∧ c.toNat ≤ 90
  · have hv : (c.toNat + 32).isValidChar := by
      left
      have := h.2
      omega
    rw [if_pos h, char_toNat_ofNat hv, if_neg (by omega)]
  · rw [if_neg h, if_neg h]


theorem lowerStr_eq_self (h : LowerFixed s) : lowerStr s = s := by
  simpa [lowerStr] using List.map_congr_left h

theorem lowerFixed_lowerStr (s : Str) : LowerFixed (lowerStr s) := by
  intro c hc
  simp only [lowerStr, List.mem_map] at hc
  obtain ⟨d, _, rfl⟩ := hc
  exact Char.toLower_toLower d

theorem lowerStr_idem (s : Str) : lowerStr (lowerStr s) = lowerStr s :=
  lowerStr_eq_self (lowerFixed_lowerStr s)

theorem lowerFixed_append {a b : Str} (ha : LowerFixed a) (hb : LowerFixed b) :
    LowerFixed (a ++ b) := by
  intro c hc
  rcases List.mem_append.mp hc with h | h
  · exact ha c h
  · exact hb c h

theorem lowerFixed_sub {a b : Str} (h : LowerFixed b) (hsub : ∀ c ∈ a, c ∈ b) :
    LowerFixed a := fun c hc => h c (hsub c hc)

/-! ## Helper lemmas: prefixes, containment and replacement -/

theorem startsWith_append_drop :
    ∀ {pat s : Str}, startsWith pat s = true → pat ++ s.drop pat.length = s := by
  intro pat
  induction pat with
  | nil => intro s _; simp
  | cons a as ih =>
    intro s h
    cases s with
    | nil => simp [startsWith] at h
    | cons b bs =>
      simp only [startsWith, Bool.and_eq_true, decide_eq_true_eq] at h
      obtain ⟨rfl, h2⟩ := h
      simpa using ih h2

theorem containsStr_cons (c : Char) (t pat : Str) :
    containsStr (c :: t) pat = (startsWith pat (c :: t) || containsStr t pat) := by
  conv_lhs => rw [containsStr]

theorem replaceFuel_of_not_contains {pat repl : Str} :
    ∀ (f : Nat) (s : Str), containsStr s pat = false → replaceFuel pat repl f s = s := by
  intro f
  induction f with
  | zero => intro s _; rfl
  | succ f ih =>
    intro s h
    cases s with
    | nil => rfl
    | cons c rest =>
      rw [containsStr_cons, Bool.or_eq_false_iff] at h
      rw [replaceFuel, if_neg (by simp [h.1]), ih rest h.2]

theorem replaceStr_of_not_contains {pat repl s : Str}
    (h : containsStr s pat = false) : replaceStr pat repl s = s :=
  replaceFuel_of_not_contains _ s h

theorem replaceFuel_self {pat : Str} :
    ∀ (f : Nat) (s : Str), replaceFuel pat pat f s = s := by
  intro f
  induction f with
  | zero => intro s; rfl
  | succ f ih =>
    intro s
    cases s with
    | nil => rfl
    | cons c rest =>
      rw [replaceFuel]
      by_cases h : startsWith pat (c :: rest) = true
      · rw [if_pos h, ih]
        exact startsWith_append_drop h
      · rw [if_neg h, ih]

theorem replaceStr_self (pat s : Str) : replaceStr pat pat s = s :=
  replaceFuel_self _ s

theorem mem_replaceFuel {pat repl : Str} :
    ∀ (f : Nat) (s : Str) (c : Char), c ∈ replaceFuel pat repl f s → c ∈ s ∨ c ∈ repl := by
  intro f
  induction f with
  | zero => intro s c h; exact Or.inl h
  | succ f ih =>
    intro s c h
    cases s with
    | nil => simp [replaceFuel] at h
    | cons a rest =>
      rw [replaceFuel] at h
      by_cases hp : startsWith pat (a :: rest) = true
      · rw [if_pos hp] at h
        rcases List.mem_append.mp h with h | h
        · exact Or.inr h
        · rcases ih _ c h with h | h
          · exact Or.inl (List.mem_of_mem_drop h)
          · exact Or.inr h
      · rw [if_neg hp] at h
        rcases List.mem_cons.mp h with rfl | h
        · exact Or.inl (List.mem_cons_self _ _)
        · rcases ih _ c h with h | h
          · exact Or.inl (List.mem_cons_of_mem _ h)
          · exact Or.inr h

theorem lowerFixed_replaceStr {pat repl s : Str}
    (hs : LowerFixed s) (hr : LowerFixed repl) : LowerFixed (replaceStr pat repl s) := by
  intro c hc
  rcases mem_replaceFuel _ _ c hc with h | h
  · exact hs c h
  · exact hr c h

/-! ## Helper lemmas: splitting and joining -/

theorem splitOnChar_ne_nil (c : Char) (s : Str) : splitOnChar c s ≠ [] := by
  cases s with
  | nil => simp [splitOnChar]
  | cons a rest =>
    rw [splitOnChar]
    by_cases h : a = c
    · simp [h]
    · rw [if_neg h]
      match hm : splitOnChar c rest with
      | [] => simp
      | h' :: t => simp

theorem not_mem_of_mem_splitOnChar {c : Char} :
    ∀ {s : Str} {x : Str}, x ∈ splitOnChar c s → c ∉ x := by
  intro s
  induction s with
  | nil =>
    intro x hx
    simp [splitOnChar] at hx
    simp [hx]
  | cons a rest ih =>
    intro x hx
    rw [splitOnChar] at hx
    by_cases h : a = c
    · rw [if_pos h] at hx
      rcases List.mem_cons.mp hx with rfl | hx
      · simp
      · exact ih hx
    · rw [if_neg h] at hx
      rcases hm : splitOnChar c rest with _ | ⟨p, t⟩
      · exact absurd hm (splitOnChar_ne_nil c rest)
      · rw [hm] at hx
        rcases List.mem_cons.mp hx with rfl | hx
        · intro hc
          rcases List.mem_cons.mp hc with rfl | hc
          · exact h rfl
          · exact ih (hm ▸ List.mem_cons_self p t) hc
        · exact ih (hm ▸ List.mem_cons_of_mem p hx)

theorem mem_of_mem_splitOnChar {c : Char} :
    ∀ {s : Str} {x : Str} {a : Char}, x ∈ splitOnChar c s → a ∈ x → a ∈ s := by
  intro s
  induction s with
  | nil =>
    intro x a hx ha
    simp [splitOnChar] at hx
    simp [hx] at ha
  | cons b rest ih =>
    intro x a hx ha
    rw [splitOnChar] at hx
    by_cases h : b = c
    · rw [if_pos h] at hx
      rcases List.mem_cons.mp hx with rfl | hx
      · simp at ha
      · exact List.mem_cons_of_mem _ (ih hx ha)
    · rw [if_neg h] at hx
      rcases hm : splitOnChar c rest with _ | ⟨p, t⟩
      · exact absurd hm (splitOnChar_ne_nil c rest)
      · rw [hm] at hx
        rcases List.mem_cons.mp hx with rfl | hx
        · rcases List.mem_cons.mp ha with rfl | ha
          · exact List.mem_cons_self _ _
          · exact List.mem_cons_of_mem _ (ih (hm ▸ List.mem_cons_self p t) ha)
        · exact List.mem_cons_of_mem _ (ih (hm ▸ List.mem_cons_of_mem p hx) ha)

theorem splitOnChar_of_not_mem {c : Char} {x : Str} (h : c ∉ x) :
    splitOnChar c x = [x] := by
  induction x with
  | nil => rfl
  | cons a rest ih =>
    rw [splitOnChar, if_neg (by rintro rfl; exact h (List.mem_cons_self _ _))]
    rw [ih (fun hc => h (List.mem_cons_of_mem _ hc))]

theorem splitOnChar_append_sep {c : Char} {x r : Str} (h : c ∉ x) :
    splitOnChar c (x ++ c :: r) = x :: splitOnChar c r := by
  induction x with
  | nil => simp [splitOnChar]
  | cons a rest ih =>
    have ha : ¬ a = c := by rintro rfl; exact h (List.mem_cons_self _ _)
    rw [List.cons_append, splitOnChar, if_neg ha,
      ih (fun hc => h (List.mem_cons_of_mem _ hc))]

theorem splitOnChar_joinSep {c : Char} :
    ∀ {xs : List Str}, xs ≠ [] → (∀ x ∈ xs, c ∉ x) →
      splitOnChar c (joinSep [c] xs) = xs := by
  intro xs
  induction xs with
  | nil => intro h _; exact absurd rfl h
  | cons x rest ih =>
    intro _ hmem
    cases rest with
    | nil =>
      rw [joinSep, splitOnChar_of_not_mem (hmem x (List.mem_cons_self _ _))]
    | cons y t =>
      have hj : joinSep [c] (x :: y :: t) = x ++ c :: joinSep [c] (y :: t) := by
        show x ++ [c] ++ joinSep [c] (y :: t) = x ++ c :: joinSep [c] (y :: t)
        simp
      rw [hj, splitOnChar_append_sep (hmem x (List.mem_cons_self _ _))]
      rw [ih (List.cons_ne_nil y t) (fun z hz => hmem z (List.mem_cons_of_mem _ hz))]

theorem mem_joinSep {sep : Str} :
    ∀ {xs : List Str} {a : Char}, a ∈ joinSep sep xs →
      (∃ x ∈ xs, a ∈ x) ∨ a ∈ sep := by
  intro xs
  induction xs with
  | nil => intro a ha; simp [joinSep] at ha
  | cons x rest ih =>
    intro a ha
    cases rest with
    | nil => exact Or.inl ⟨x, List.mem_cons_self _ _, ha⟩
    | cons y t =>
      have hj : joinSep sep (x :: y :: t) = x ++ sep ++ joinSep sep (y :: t) := rfl
      rw [hj] at ha
      rcases List.mem_append.mp ha with h | h
      · rcases List.mem_append.mp h with h | h
        · exact Or.inl ⟨x, List.mem_cons_self _ _, h⟩
        · exact Or.inr h
      · rcases ih h with ⟨z, hz, haz⟩ | h
        · exact Or.inl ⟨z, List.mem_cons_of_mem _ hz, haz⟩
        · exact Or.inr h

/-! ## Helper lemmas: sorting -/


theorem strLe_total : ∀ (a b : Str), strLe a b = true ∨ strLe b a = true := by
  intro a
  induction a with
  | nil => intro b; exact Or.inl rfl
  | cons x xs ih =>
    intro b
    cases b with
    | nil => exact Or.inr rfl
    | cons y ys =>
      by_cases h1 : x.toNat < y.toNat
      · exact Or.inl (by rw [strLe, if_pos h1])
      · by_cases h2 : y.toNat < x.toNat
        · exact Or.inr (by rw [strLe, if_pos h2])
        · rcases ih ys with h | h
          · exact Or.inl (by rw [strLe, if_neg h1, if_neg h2]; exact h)
          · exact Or.inr (by rw [strLe, if_neg h2, if_neg h1]; exact h)

theorem strLe_of_not_strLe {a b : Str} (h : ¬ strLe a b = true) : strLe b a = true := by
  rcases strLe_total a b with h' | h'
  · exact absurd h' h
  · exact h'

theorem strLe_trans : ∀ {a b c : Str}, strLe a b = true → strLe b c = true → strLe a c = true := by
  intro a
  induction a with
  | nil => intro b c _ _; rfl
  | cons x xs ih =>
    intro b c hab hbc
    cases b with
    | nil => simp [strLe] at hab
    | cons y ys =>
      cases c with
      | nil => simp [strLe] at hbc
      | cons z zs =>
        rw [strLe] at hab hbc ⊢
        by_cases hxy : x.toNat < y.toNat
        · by_cases hyz : y.toNat < z.toNat
          · rw [if_pos (by omega)]
          · rw [if_neg hyz] at hbc
            by_cases hzy : z.toNat < y.toNat
            · rw [if_pos hzy] at hbc; exact absurd hbc (by simp)
            · rw [if_pos (by omega)]
        · rw [if_neg hxy] at hab
          by_cases hyx : y.toNat < x.toNat
          · rw [if_pos hyx] at hab; exact absurd hab (by simp)
          · rw [if_neg hyx] at hab
            by_cases hyz : y.toNat < z.toNat
            · rw [if_pos (by omega)]
            · rw [if_neg hyz] at hbc
              by_cases hzy : z.toNat < y.toNat
              · rw [if_pos hzy] at hbc; exact absurd hbc (by simp)
              · rw [if_neg hzy] at hbc
                rw [if_neg (by omega), if_neg (by omega)]
                exact ih hab hbc

theorem mem_insertSorted {z x : Str} :
    ∀ {l : List Str}, z ∈ insertSorted x l ↔ z = x ∨ z ∈ l := by
  intro l
  induction l with
  | nil => simp [insertSorted]
  | cons y ys ih =>
    rw [insertSorted]
    by_cases h : strLe x y = true
    · rw [if_pos h]
      simp
    · rw [if_neg h]
      simp only [List.mem_cons, ih]
      tauto

theorem sortedLe_insertSorted {x : Str} :
    ∀ {l : List Str}, SortedLe l → SortedLe (insertSorted x l) := by
  intro l
  induction l with
  | nil => intro _; simp [insertSorted, SortedLe]
  | cons y ys ih =>
    intro h
    rw [SortedLe, List.pairwise_cons] at h
    obtain ⟨hy, hys⟩ := h
    rw [insertSorted]
    by_cases hxy : strLe x y = true
    · rw [if_pos hxy, SortedLe, List.pairwise_cons]
      refine ⟨?_, List.pairwise_cons.mpr ⟨hy, hys⟩⟩
      intro z hz
      rcases List.mem_cons.mp hz with rfl | hz
      · exact hxy
      · exact strLe_trans hxy (hy z hz)
    · rw [if_neg hxy, SortedLe, List.pairwise_cons]
      constructor
      · intro z hz
        rcases mem_insertSorted.mp hz with rfl | hz
        · exact strLe_of_not_strLe hxy
        · exact hy z hz
      · exact ih hys

theorem sortedLe_sortStrs : ∀ (l : List Str), SortedLe (sortStrs l) := by
  intro l
  induction l with
  | nil => simp [sortStrs, SortedLe]
  | cons x xs ih => exact sortedLe_insertSorted ih

theorem sortStrs_eq_self : ∀ {l : List Str}, SortedLe l → sortStrs l = l := by
  intro l
  induction l with
  | nil => intro _; rfl
  | cons x xs ih =>
    intro h
    rw [SortedLe, List.pairwise_cons] at h
    obtain ⟨hx, hxs⟩ := h
    rw [sortStrs, ih hxs]
    cases xs with
    | nil => rfl
    | cons y ys =>
      rw [insertSorted, if_pos (hx y (List.mem_cons_self _ _))]

theorem sortStrs_idem (l : List Str) : sortStrs (sortStrs l) = sortStrs l :=
  sortStrs_eq_self (sortedLe_sortStrs l)

theorem mem_sortStrs {z : Str} : ∀ {l : List Str}, z ∈ sortStrs l ↔ z ∈ l := by
  intro l
  induction l with
  | nil => simp [sortStrs]
  | cons x xs ih =>
    rw [sortStrs, mem_insertSorted]
    simp [ih]

theorem length_insertSorted {x : Str} :
    ∀ {l : List Str}, (insertSorted x l).length = l.length + 1 := by
  intro l
  induction l with
  | nil => rfl
  | cons y ys ih =>
    rw [insertSorted]
    by_cases h : strLe x y = true
    · rw [if_pos h]; rfl
    · rw [if_neg h]
      simp [ih]

theorem length_sortStrs : ∀ (l : List Str), (sortStrs l).length = l.length := by
  intro l
  induction l with
  | nil => rfl
  | cons x xs ih =>
    rw [sortStrs, length_insertSorted, ih]
    rfl

/-! ## Helper lemmas: the normalizer -/


theorem getLastD_mem : ∀ {l : List Str}, l ≠ [] → l.getLastD [] ∈ l := by
  intro l
  induction l with
  | nil => intro h; exact absurd rfl h
  | cons x xs ih =>
    intro _
    cases xs with
    | nil => simp
    | cons y ys =>
      rw [List.getLastD_cons]
      exact List.mem_cons_of_mem _ (ih (List.cons_ne_nil y ys))

theorem joinSep_append_single {sep k : Str} :
    ∀ {xs : List Str}, xs ≠ [] → joinSep sep (xs ++ [k]) = joinSep sep xs ++ sep ++ k := by
  intro xs
  induction xs with
  | nil => intro h; exact absurd rfl h
  | cons x rest ih =>
    intro _
    cases rest with
    | nil => rfl
    | cons y t =>
      have h1 : joinSep sep ((x :: y :: t) ++ [k]) = x ++ sep ++ joinSep sep ((y :: t) ++ [k]) := rfl
      have h2 : joinSep sep (x :: y :: t) = x ++ sep ++ joinSep sep (y :: t) := rfl
      rw [h1, h2, ih (List.cons_ne_nil y t)]
      simp [List.append_assoc]

theorem sortStrs_ne_nil {l : List Str} (h : l ≠ []) : sortStrs l ≠ [] := by
  intro hc
  have := length_sortStrs l
  rw [hc] at this
  exact h (List.length_eq_zero.mp this.symm)

/-- Unfolded form of `sortModifiers` in the many-parts case, with the
final key merged into a single join. -/
theorem sortModifiers_of_many {n : Str} (h : (splitOnChar '+' n).length > 1) :
    sortModifiers n =
      joinSep ['+'] (sortStrs (splitOnChar '+' n).dropLast ++ [(splitOnChar '+' n).getLastD []]) := by
  have hmodsne : sortStrs (splitOnChar '+' n).dropLast ≠ [] := by
    apply sortStrs_ne_nil
    intro hc
    have := congrArg List.length hc
    rw [List.length_dropLast] at this
    simp only [List.length_nil] at this
    omega
  rw [sortModifiers, if_pos h, joinSep_append_single hmodsne]
  rfl

/-- Applying `sortModifiers` to an already-assembled join of plus-free
parts sorts all parts but the last. -/
theorem sortModifiers_joinSep {mods : List Str} {key : Str} (hne : mods ≠ [])
    (hnp : ∀ x ∈ mods ++ [key], '+' ∉ x) :
    sortModifiers (joinSep ['+'] (mods ++ [key])) = joinSep ['+'] (sortStrs mods ++ [key]) := by
  have hsplit : splitOnChar '+' (joinSep ['+'] (mods ++ [key])) = mods ++ [key] :=
    splitOnChar_joinSep (by simp) hnp
  have hlen : (splitOnChar '+' (joinSep ['+'] (mods ++ [key]))).length > 1 := by
    rw [hsplit, List.length_append, List.length_singleton]
    have : mods.length ≠ 0 := fun hc => hne (List.length_eq_zero.mp hc)
    omega
  rw [sortModifiers_of_many hlen, hsplit, List.dropLast_concat, List.getLastD_concat]

theorem sortModifiers_idem (n : Str) : sortModifiers (sortModifiers n) = sortModifiers n := by
  by_cases hlen : (splitOnChar '+' n).length > 1
  · have hpne : splitOnChar '+' n ≠ [] := splitOnChar_ne_nil '+' n
    have hfirst := sortModifiers_of_many hlen
    have hnoplus : ∀ x ∈ sortStrs (splitOnChar '+' n).dropLast ++ [(splitOnChar '+' n).getLastD []],
        '+' ∉ x := by
      intro x hx
      rcases List.mem_append.mp hx with hx | hx
      · exact not_mem_of_mem_splitOnChar
          ((List.dropLast_sublist _).subset (mem_sortStrs.mp hx))
      · rw [List.mem_singleton.mp hx]
        exact not_mem_of_mem_splitOnChar (getLastD_mem hpne)
    have hmodsne : sortStrs (splitOnChar '+' n).dropLast ≠ [] := by
      apply sortStrs_ne_nil
      intro hc
      have := congrArg List.length hc
      rw [List.length_dropLast] at this
      simp only [List.length_nil] at this
      omega
    rw [hfirst, sortModifiers_joinSep hmodsne hnoplus, sortStrs_idem]
  · have h1 : sortModifiers n = n := by rw [sortModifiers, if_neg hlen]
    rw [h1, h1]

theorem replaceChain_fixed {t : Str}
    (h1 : containsStr t (str "commandorcontrol") = false)
    (h2 : containsStr t (str "key") = false)
    (h3 : containsStr t (str "cmd+") = false)
    (h4 : containsStr t (str "command+") = false) :
    replaceChain t = t := by
  rw [replaceChain]
  rw [replaceStr_of_not_contains h1, replaceStr_of_not_contains h2,
    replaceStr_self, replaceStr_self, replaceStr_self,
    replaceStr_of_not_contains h3, replaceStr_of_not_contains h4]

theorem lowerFixed_replaceChain {s : Str} (hs : LowerFixed s) :
    LowerFixed (replaceChain s) := by
  rw [replaceChain]
  refine lowerFixed_replaceStr (lowerFixed_replaceStr (lowerFixed_replaceStr
    (lowerFixed_replaceStr (lowerFixed_replaceStr (lowerFixed_replaceStr
      (lowerFixed_replaceStr hs ?_) ?_) ?_) ?_) ?_) ?_) ?_ <;> decide

theorem lowerFixed_sortModifiers {n : Str} (hn : LowerFixed n) :
    LowerFixed (sortModifiers n) := by
  have hplusLF : LowerFixed (str "+") := by decide
  by_cases hlen : (splitOnChar '+' n).length > 1
  · rw [sortModifiers, if_pos hlen]
    refine lowerFixed_append (lowerFixed_append ?_ hplusLF) ?_
    · intro c hc
      rcases mem_joinSep hc with ⟨x, hx, hcx⟩ | hc
      · exact hn c (mem_of_mem_splitOnChar
          ((List.dropLast_sublist _).subset (mem_sortStrs.mp hx)) hcx)
      · exact hplusLF c hc
    · intro c hc
      exact hn c (mem_of_mem_splitOnChar (getLastD_mem (splitOnChar_ne_nil '+' n)) hc)
  · rw [sortModifiers, if_neg hlen]
    exact hn

theorem lowerFixed_normalizeShortcut (s : Str) : LowerFixed (normalizeShortcut s) :=
  lowerFixed_sortModifiers (lowerFixed_replaceChain (lowerFixed_lowerStr s))

/-- Conditional idempotence of the normalizer: as soon as the normalized
form is free of the four substrings that the replacement chain still
rewrites, normalizing a second time changes nothing. -/
theorem normalizeShortcut_idem_of {s : Str}
    (h1 : containsStr (normalizeShortcut s) (str "commandorcontrol") = false)
    (h2 : containsStr (normalizeShortcut s) (str "key") = false)
    (h3 : containsStr (normalizeShortcut s) (str "cmd+") = false)
    (h4 : containsStr (normalizeShortcut s) (str "command+") = false) :
    normalizeShortcut (normalizeShortcut s) = normalizeShortcut s := by
  conv_lhs => rw [normalizeShortcut]
  rw [lowerStr_eq_self (lowerFixed_normalizeShortcut s),
    replaceChain_fixed h1 h2 h3 h4]
  conv_lhs => rw [normalizeShortcut]
  rw [sortModifiers_idem]
  rfl

/-! ## Helper lemmas: the registry -/


theorem lookupKV_map_update {k v : Str} :
    ∀ {m : Registry}, m.any (fun p => p.1 = k) = true →
      lookupKV k (m.map (fun p => if p.1 = k then (k, v) else p)) = some v := by
  intro m
  induction m with
  | nil => intro h; simp at h
  | cons p rest ih =>
    intro h
    obtain ⟨k1, v1⟩ := p
    by_cases hk : k1 = k
    · simp only [List.map_cons, if_pos hk]
      rw [lookupKV, if_pos rfl]
    · simp only [List.any_cons, Bool.or_eq_true, decide_eq_true_eq] at h
      rcases h with h | h
      · exact absurd h hk
      · simp only [List.map_cons, if_neg hk]
        rw [lookupKV, if_neg hk]
        exact ih h

theorem lookupKV_append_single {k v : Str} :
    ∀ {m : Registry}, m.any (fun p => p.1 = k) = false →
      lookupKV k (m ++ [(k, v)]) = some v := by
  intro m
  induction m with
  | nil => intro _; rw [List.nil_append, lookupKV, if_pos rfl]
  | cons p rest ih =>
    intro h
    obtain ⟨k1, v1⟩ := p
    simp only [List.any_cons, Bool.or_eq_false_iff, decide_eq_false_iff_not] at h
    rw [List.cons_append, lookupKV, if_neg h.1]
    exact ih (by simp [h.2])

theorem lookupKV_insertKV_self (k v : Str) (m : Registry) :
    lookupKV k (insertKV k v m) = some v := by
  rw [insertKV]
  by_cases h : m.any (fun p => p.1 = k) = true
  · rw [if_pos h]
    exact lookupKV_map_update h
  · rw [if_neg h]
    exact lookupKV_append_single (Bool.not_eq_true _ ▸ h)

theorem lookupKV_removeKV_self (k : Str) (m : Registry) :
    lookupKV k (removeKV k m) = none := by
  induction m with
  | nil => rfl
  | cons p rest ih =>
    obtain ⟨k1, v1⟩ := p
    rw [removeKV] at ih ⊢
    by_cases hk : k1 = k
    · rw [List.filter_cons_of_neg (by simp [hk])]
      exact ih
    · rw [List.filter_cons_of_pos (by simp [hk]), lookupKV, if_neg hk]
      exact ih

theorem keysOf_insertKV (k v : Str) (m : Registry) :
    keysOf (insertKV k v m) = keysOf m ∨ keysOf (insertKV k v m) = keysOf m ++ [k] := by
  rw [insertKV]
  by_cases h : m.any (fun p => p.1 = k) = true
  · left
    rw [if_pos h, keysOf, keysOf, List.map_map]
    apply List.map_congr_left
    intro p _
    by_cases hp : p.1 = k
    · simp [hp]
    · simp [hp]
  · right
    rw [if_neg h, keysOf, keysOf, List.map_append]
    rfl

theorem mem_keysOf_insertKV {k' k v : Str} {m : Registry}
    (h : k' ∈ keysOf (insertKV k v m)) : k' ∈ keysOf m ∨ k' = k := by
  rcases keysOf_insertKV k v m with he | he <;> rw [he] at h
  · exact Or.inl h
  · rcases List.mem_append.mp h with h | h
    · exact Or.inl h
    · exact Or.inr (List.mem_singleton.mp h)

theorem not_mem_keysOf_of_not_any {k : Str} {m : Registry}
    (h : m.any (fun p => p.1 = k) = false) : k ∉ keysOf m := by
  intro hm
  rw [keysOf, List.mem_map] at hm
  obtain ⟨p, hp, hpk⟩ := hm
  have : m.any (fun p => p.1 = k) = true := List.any_eq_true.mpr ⟨p, hp, decide_eq_true hpk⟩
  rw [h] at this
  exact Bool.false_ne_true this

theorem nodup_keysOf_insertKV {k v : Str} {m : Registry}
    (h : (keysOf m).Nodup) : (keysOf (insertKV k v m)).Nodup := by
  rw [insertKV]
  by_cases ha : m.any (fun p => p.1 = k) = true
  · rw [if_pos ha]
    have he : keysOf (m.map (fun p => if p.1 = k then (k, v) else p)) = keysOf m := by
      rw [keysOf, keysOf, List.map_map]
      apply List.map_congr_left
      intro p _
      by_cases hp : p.1 = k
      · simp [hp]
      · simp [hp]
    rw [show keysOf (m.map (fun p => if p.1 = k then (k, v) else p)) = keysOf m from he]
    exact h
  · rw [if_neg ha]
    have hk : k ∉ keysOf m := not_mem_keysOf_of_not_any (Bool.not_eq_true _ ▸ ha)
    have : keysOf (m ++ [(k, v)]) = keysOf m ++ [k] := by
      rw [keysOf, keysOf, List.map_append]
      rfl
    rw [show keysOf (m ++ [(k, v)]) = keysOf m ++ [k] from this]
    simpa using List.Nodup.append h (List.nodup_singleton k) (by simpa using hk)

theorem keysOf_removeKV_sublist (k : Str) (m : Registry) :
    (keysOf (removeKV k m)).Sublist (keysOf m) :=
  (List.filter_sublist m).map Prod.fst

/-! ## Helper lemmas: state invariants -/


theorem stInv_insert_lower {st : DispatchState} {s v : Str} (h : StInv st) :
    StInv { st with registry := insertKV (lowerStr s) v st.registry } := by
  refine ⟨nodup_keysOf_insertKV h.1, ?_⟩
  intro k hk
  rcases mem_keysOf_insertKV hk with hk | rfl
  · exact h.2 k hk
  · exact lowerStr_idem s

theorem stInv_initState : StInv initState := by
  constructor
  · simp [initState, keysOf]
  · intro k hk
    simp [initState, keysOf] at hk

theorem stInv_stepOp {st : DispatchState} (h : StInv st) (op : Op) :
    StInv (stepOp st op) := by
  cases op with
  | reg s c p o =>
    rw [stepOp, register_hotkey]
    by_cases hp : p = true
    · by_cases ho : o = true
      · rw [hp, ho]
        exact stInv_insert_lower h
      · have : o = false := Bool.not_eq_true o ▸ ho
        rw [hp, this]
        exact h
    · have : p = false := Bool.not_eq_true p ▸ hp
      rw [this]
      exact h
  | unreg s p o =>
    rw [stepOp, unregister_hotkey]
    by_cases hp : p = true
    · by_cases ho : o = true
      · rw [hp, ho]
        simp only [Bool.not_true, Bool.false_eq_true, if_false]
        refine ⟨(keysOf_removeKV_sublist _ _).nodup h.1, ?_⟩
        intro k hk
        exact h.2 k ((keysOf_removeKV_sublist _ _).subset hk)
      · have : o = false := Bool.not_eq_true o ▸ ho
        rw [hp, this]
        exact h
    · have : p = false := Bool.not_eq_true p ▸ hp
      rw [this]
      exact h
  | remember s c =>
    rw [stepOp, register_shortcut_command]
    exact stInv_insert_lower h
  | defaults p1 o1 p2 o2 =>
    rw [stepOp, setup_default_shortcuts]
    dsimp only
    by_cases h1 : (p1 && o1) = true
    · rw [if_pos h1]
      by_cases h2 : (p2 && o2) = true
      · rw [if_pos h2]
        exact stInv_insert_lower (stInv_insert_lower h)
      · rw [if_neg h2]
        exact stInv_insert_lower h
    · rw [if_neg h1]
      by_cases h2 : (p2 && o2) = true
      · rw [if_pos h2]
        exact stInv_insert_lower h
      · rw [if_neg h2]
        exact h
  | setupTS e m p o =>
    rw [stepOp, setup_text_selection_monitoring]
    by_cases he : e = true
    · rw [if_pos he]
      dsimp only
      by_cases hp : (!p) = true
      · rw [if_pos hp]
        exact ⟨h.1, h.2⟩
      · rw [if_neg hp]
        by_cases ho : (!o) = true
        · rw [if_pos ho]
          exact ⟨h.1, h.2⟩
        · rw [if_neg ho, register_shortcut_command]
          exact stInv_insert_lower ⟨h.1, h.2⟩
    · rw [if_neg he]
      exact ⟨h.1, h.2⟩

theorem stInv_runOps (ops : List Op) : StInv (runOps ops) := by
  rw [runOps]
  have hgen : ∀ (l : List Op) (st : DispatchState), StInv st → StInv (l.foldl stepOp st) := by
    intro l
    induction l with
    | nil => intro st h; exact h
    | cons op rest ih =>
      intro st h
      exact ih (stepOp st op) (stInv_stepOp h op)
  exact hgen ops initState stInv_initState

/-! ## Helper lemmas: the dispatch handler -/

theorem commandAction_ne_fast {c : Str} {a : DispatchAction}
    (h : commandAction c = some a) : a ≠ .textSelectionFast := by
  rw [commandAction] at h
  split_ifs at h <;> simp_all <;> intro hc <;> rw [hc] at h <;> simp at h

theorem fuzzyLoop_ne_fast (press : Str) :
    ∀ (l : Registry), fuzzyLoop press l ≠ .textSelectionFast := by
  intro l
  induction l with
  | nil => rw [fuzzyLoop]; intro h; cases h
  | cons p rest ih =>
    obtain ⟨k, c⟩ := p
    rw [fuzzyLoop]
    by_cases hm : shortcuts_match press k = true
    · rw [if_pos hm]
      cases hca : commandAction c with
      | some a => exact commandAction_ne_fast hca
      | none => exact ih
    · rw [if_neg hm]
      exact ih

theorem lookupDispatch_ne_fast (st : DispatchState) (press : Str) :
    lookupDispatch st press ≠ .textSelectionFast := by
  cases hl : lookupKV (lowerStr press) (get_registered_shortcuts st) with
  | none => rw [lookupDispatch, hl]; exact fuzzyLoop_ne_fast press _
  | some c =>
    rw [lookupDispatch, hl]
    show (match commandAction c with
          | some a => a
          | none => fuzzyLoop press (get_registered_shortcuts st)) ≠ DispatchAction.textSelectionFast
    cases hca : commandAction c with
    | some a => exact commandAction_ne_fast hca
    | none => exact fuzzyLoop_ne_fast press _


theorem handler_fast_of_enabled {st : DispatchState} {press m : Str}
    (hg : containsGrave press = true)
    (hm : fastPathModifier press = some m)
    (he : is_text_selection_enabled_for st m = true) :
    global_shortcut_handler st press = .textSelectionFast := by
  rw [fastPathModifier] at hm
  rw [global_shortcut_handler]
  by_cases hc : containsStr press (str "Control") = true
  · rw [if_pos hc] at hm
    obtain rfl : str "ctrl" = m := Option.some_injective _ hm
    rw [if_pos (by rw [hc, hg]; rfl), if_pos he]
  · rw [if_neg hc] at hm
    rw [if_neg (by simp [Bool.not_eq_true _ ▸ hc])]
    by_cases hs : containsStr press (str "Shift") = true
    · rw [if_pos hs] at hm
      obtain rfl : str "shift" = m := Option.some_injective _ hm
      rw [if_pos (by rw [hs, hg]; rfl), if_pos he]
    · rw [if_neg hs] at hm
      rw [if_neg (by simp [Bool.not_eq_true _ ▸ hs])]
      by_cases ha : containsStr press (str "Alt") = true
      · rw [if_pos ha] at hm
        obtain rfl : str "alt" = m := Option.some_injective _ hm
        rw [if_pos (by rw [ha, hg]; rfl), if_pos he]
      · rw [if_neg ha] at hm
        cases hm

theorem handler_eq_lookupDispatch_of_disabled {st : DispatchState} {press : Str}
    (h : st.monitor.enabled = false) :
    global_shortcut_handler st press = lookupDispatch st press := by
  have he : ∀ m, is_text_selection_enabled_for st m = false := by
    intro m
    rw [is_text_selection_enabled_for, h, Bool.false_and]
  rw [global_shortcut_handler, he, he, he]
  split_ifs <;> first | rfl | contradiction



theorem fuzzyLoop_eq_of_findFuzzyKnown {press : Str} :
    ∀ {l : Registry} {k c : Str} {a : DispatchAction},
      findFuzzyKnown press l = some (k, c) →
      commandAction c = some a →
      fuzzyLoop press l = a := by
  intro l
  induction l with
  | nil => intro k c a hfind _; simp [findFuzzyKnown] at hfind
  | cons p rest ih =>
    intro k c a hfind hca
    obtain ⟨k1, c1⟩ := p
    rw [findFuzzyKnown] at hfind
    by_cases hm : shortcuts_match press k1 = true
    · cases hc1 : commandAction c1 with
      | some a1 =>
        rw [if_pos (by rw [hm, hc1]; rfl)] at hfind
        obtain ⟨rfl, rfl⟩ : k1 = k ∧ c1 = c := by
          have := Option.some_injective _ hfind
          exact ⟨congrArg Prod.fst this, congrArg Prod.snd this⟩
        rw [fuzzyLoop, if_pos hm, hc1]
        rw [hc1] at hca
        exact Option.some_injective _ hca
      | none =>
        rw [if_neg (by rw [hm, hc1]; simp)] at hfind
        rw [fuzzyLoop, if_pos hm, hc1]
        exact ih hfind hca
    · rw [if_neg (by simp [Bool.not_eq_true _ ▸ hm])] at hfind
      rw [fuzzyLoop, if_neg hm]
      exact ih hfind hca

theorem handler_no_grave_eq_lookupDispatch {st : DispatchState} {press : Str}
    (hg : containsGrave press = false) :
    global_shortcut_handler st press = lookupDispatch st press := by
  rw [global_shortcut_handler, hg]
  simp only [Bool.and_false, Bool.false_eq_true, if_false]

/-! ## Claim theorems -/

/-- C1 (counterexample): in the state reached by enabling text-selection
monitoring for "ctrl" and then disabling it, the monitor's enabled flag
is false, yet a press of "control+backquote" still makes the Dispatch
Handler invoke the selection-capture path: disabling never removes the
registry entry mapping "control+backquote" to the "text-selection"
command, and command dispatch does not consult the enabled flag. -/
theorem C1_counterexample :
    (runOps [.setupTS true (str "ctrl") true true,
             .setupTS false (str "ctrl") true true]).monitor.enabled = false ∧
    invokesTextSelection
      (global_shortcut_handler
        (runOps [.setupTS true (str "ctrl") true true,
                 .setupTS false (str "ctrl") true true])
        (str "control+backquote")) := by
  constructor
  · decide
  · right
    decide

/-- C1 (amended): for every state of the dispatch subsystem in which the
text-selection monitor's enabled flag is false, and every pressed
shortcut string, the handler never reaches the selection-capture path
through the bare-modifier fast path, regardless of which modifier is
pressed and regardless of the Registry contents.  (It can still reach
`handle_text_selection` through a Registry entry whose command is
"text-selection"; such an entry survives enable-then-disable.) -/
theorem C1_disabled_no_fast_path (st : DispatchState) (press : Str)
    (h : st.monitor.enabled = false) :
    global_shortcut_handler st press ≠ .textSelectionFast := by
  rw [handler_eq_lookupDispatch_of_disabled h]
  exact lookupDispatch_ne_fast st press

/-- C1 (witness): the amended theorem applied in the start state to a
press of "Control+Backquote". -/
theorem C1_disabled_no_fast_path_witness :
    initState.monitor.enabled = false ∧
    global_shortcut_handler initState (str "Control+Backquote") ≠ .textSelectionFast :=
  ⟨by decide, C1_disabled_no_fast_path initState (str "Control+Backquote") (by decide)⟩

/-- C2 (counterexample): register "Alt+Space", then unregister it while
the OS-facility unbind fails: `unregister_hotkey` returns early on the
failed OS call, so the shortcut is still present in the registry
returned by `get_registered_shortcuts` — the claim's "removed regardless
of whether the OS call succeeded" is false on the code. -/
theorem C2_counterexample :
    lookupKV (str "alt+space")
      (get_registered_shortcuts
        (unregister_hotkey
          (register_hotkey initState (str "Alt+Space") (str "quickai") true true).1
          (str "Alt+Space") true false).1) = some (str "quickai") ∧
    (unregister_hotkey
      (register_hotkey initState (str "Alt+Space") (str "quickai") true true).1
      (str "Alt+Space") true false).2 = false := by
  decide

/-- C2 (amended): after a call to unregister(shortcut) whose parse and
OS unbind both succeed, the shortcut's lowercased key is absent from the
registry; but when the OS unbind fails, unregister returns an error
before touching the local registry, leaving the state — and any entry
for that key — unchanged. -/
theorem C2_unregister_removes_only_on_os_success (st : DispatchState) (s : Str) :
    lookupKV (lowerStr s)
      (get_registered_shortcuts (unregister_hotkey st s true true).1) = none ∧
    (unregister_hotkey st s true false).1 = st ∧
    (unregister_hotkey st s true false).2 = false := by
  refine ⟨?_, rfl, rfl⟩
  exact lookupKV_removeKV_self (lowerStr s) st.registry

/-- C3 (counterexample): registering "Control+KeyG" to command "a" and
then "control+g" to command "b" leaves TWO registry entries whose keys
have equal normalized forms but different commands, because
`register_hotkey` keys the registry by the lowercased raw string, not by
the normalized form; the later equivalent registration does not
overwrite the earlier one. -/
theorem C3_counterexample :
    normalizeShortcut (str "control+keyg") = normalizeShortcut (str "control+g") ∧
    lookupKV (str "control+keyg")
      (get_registered_shortcuts (runOps [.reg (str "Control+KeyG") (str "a") true true,
                                         .reg (str "control+g") (str "b") true true]))
      = some (str "a") ∧
    lookupKV (str "control+g")
      (get_registered_shortcuts (runOps [.reg (str "Control+KeyG") (str "a") true true,
                                         .reg (str "control+g") (str "b") true true]))
      = some (str "b") ∧
    str "a" ≠ str "b" := by
  decide

/-- C3 (amended): successful register(shortcut, command) inserts the
pair (lowercase(shortcut), command) into the Registry; a later
registration for a shortcut with the SAME LOWERCASED form overwrites the
earlier command (last write wins at the lowercased-key granularity); and
after every operation sequence the Registry's raw keys are pairwise
distinct.  Uniqueness up to the §4.1 normalized form does NOT hold. -/
theorem C3_register_inserts_lowercased_last_write_wins :
    (∀ (st : DispatchState) (s c : Str),
      lookupKV (lowerStr s)
        (get_registered_shortcuts (register_hotkey st s c true true).1) = some c) ∧
    (∀ (st : DispatchState) (s1 s2 c1 c2 : Str), lowerStr s1 = lowerStr s2 →
      lookupKV (lowerStr s1)
        (get_registered_shortcuts
          (register_hotkey (register_hotkey st s1 c1 true true).1 s2 c2 true true).1)
        = some c2) ∧
    (∀ ops : List Op, (keysOf (get_registered_shortcuts (runOps ops))).Nodup) := by
  refine ⟨?_, ?_, ?_⟩
  · intro st s c
    exact lookupKV_insertKV_self (lowerStr s) c st.registry
  · intro st s1 s2 c1 c2 h
    rw [h]
    exact lookupKV_insertKV_self (lowerStr s2) c2 _
  · intro ops
    exact (stInv_runOps ops).1

/-- C3 (witness): the amended last-write-wins clause at the spec's own
scenario — register "Alt+Space" then the equal-up-to-case "alt+space";
lookup of "alt+space" yields the second command. -/
theorem C3_witness :
    lookupKV (lowerStr (str "Alt+Space"))
      (get_registered_shortcuts
        (register_hotkey
          (register_hotkey initState (str "Alt+Space") (str "quickai") true true).1
          (str "alt+space") (str "quicknote") true true).1) = some (str "quicknote") :=
  C3_register_inserts_lowercased_last_write_wins.2.1 initState
    (str "Alt+Space") (str "alt+space") (str "quickai") (str "quicknote") (by decide)

/-- C4 (counterexample): a press of "Control+Shift+Backquote" with
text-selection enabled for "shift" contains the Shift modifier together
with the Backquote key, yet the handler does NOT invoke the selection
path: the fast-path chain is an `else if` ladder that only consults the
first contained modifier (Control here), finds "ctrl" not enabled, and
falls through to the Registry, ending with no action. -/
theorem C4_counterexample :
    containsStr (str "Control+Shift+Backquote") (str "Shift") = true ∧
    containsGrave (str "Control+Shift+Backquote") = true ∧
    is_text_selection_enabled_for (runOps [.setupTS true (str "shift") true true])
      (str "shift") = true ∧
    global_shortcut_handler (runOps [.setupTS true (str "shift") true true])
      (str "Control+Shift+Backquote") = .noAction ∧
    ¬ invokesTextSelection
        (global_shortcut_handler (runOps [.setupTS true (str "shift") true true])
          (str "Control+Shift+Backquote")) := by
  refine ⟨by decide, by decide, by decide, by decide, ?_⟩
  intro h
  rcases h with h | h <;> exact absurd h (by decide)

/-- C4 (amended): when the pressed string contains a grave/backtick
spelling and the Text-Selection Trigger is enabled for the FIRST of
Control, Shift, Alt contained in the string (the fast-path chain's
consultation order), the handler invokes the text-selection collaborator
and stops before consulting the Registry — the conclusion holds for
every registry content, so in particular a registered "control+backquote"
command is preempted. -/
theorem C4_fast_path_priority (st : DispatchState) (press m : Str)
    (hg : containsGrave press = true)
    (hm : fastPathModifier press = some m)
    (he : is_text_selection_enabled_for st m = true) :
    global_shortcut_handler st press = .textSelectionFast :=
  handler_fast_of_enabled hg hm he

/-- C4 (witness): with text-selection enabled for "ctrl" and
"control+backquote" also registered as the quicknote command, a press of
"Control+Backquote" takes the selection fast path — selection wins. -/
theorem C4_witness :
    global_shortcut_handler
      { registry := [(str "control+backquote", str "quicknote")],
        monitor := { enabled := true, trigger_modifier := str "ctrl" } }
      (str "Control+Backquote") = .textSelectionFast :=
  C4_fast_path_priority
    { registry := [(str "control+backquote", str "quicknote")],
      monitor := { enabled := true, trigger_modifier := str "ctrl" } }
    (str "Control+Backquote") (str "ctrl") (by decide) (by decide) (by decide)

/-- C5 (counterexample): exact lookup of "Control+G" fails and the FIRST
fuzzy-equivalent entry in iteration order is ("control+keyg",
"future-feature"), an unknown command whose dispatch would be a logged
no-op; but the handler does not dispatch it — it skips the entry and
dispatches the LATER equivalent entry ("command+g", "quicknote")
instead, so "dispatching the first equivalent entry's command" is false
on the code. -/
theorem C5_counterexample :
    lookupKV (lowerStr (str "Control+G"))
      (get_registered_shortcuts
        (runOps [.reg (str "Control+KeyG") (str "future-feature") true true,
                 .reg (str "Command+G") (str "quicknote") true true])) = none ∧
    findFuzzy (str "Control+G")
      (get_registered_shortcuts
        (runOps [.reg (str "Control+KeyG") (str "future-feature") true true,
                 .reg (str "Command+G") (str "quicknote") true true]))
      = some (str "control+keyg", str "future-feature") ∧
    commandAction (str "future-feature") = none ∧
    global_shortcut_handler
      (runOps [.reg (str "Control+KeyG") (str "future-feature") true true,
               .reg (str "Command+G") (str "quicknote") true true])
      (str "Control+G") = .toggleQuicknote := by
  decide

/-- C5 (amended): when the pressed string contains no grave spelling and
its exact (lowercased) lookup fails, the handler scans every registry
entry in iteration order testing `shortcuts_match`, and performs the
command of the first equivalent entry WHOSE COMMAND IS KNOWN; equivalent
entries with unknown commands are logged and skipped.  In particular a
press reported as "control+g" resolves to the command registered under
"Control+KeyG" even though the raw strings differ. -/
theorem C5_fuzzy_fallback (st : DispatchState) (press k c : Str) (a : DispatchAction)
    (hg : containsGrave press = false)
    (hlook : lookupKV (lowerStr press) (get_registered_shortcuts st) = none)
    (hfind : findFuzzyKnown press (get_registered_shortcuts st) = some (k, c))
    (hca : commandAction c = some a) :
    global_shortcut_handler st press = a := by
  rw [handler_no_grave_eq_lookupDispatch hg, lookupDispatch, hlook]
  exact fuzzyLoop_eq_of_findFuzzyKnown hfind hca

/-- C5 (witness): register "Control+KeyG" to quicknote; a press reported
as "control+g" resolves to quicknote via fuzzy matching. -/
theorem C5_witness :
    global_shortcut_handler
      (runOps [.reg (str "Control+KeyG") (str "quicknote") true true])
      (str "control+g") = .toggleQuicknote :=
  C5_fuzzy_fallback (runOps [.reg (str "Control+KeyG") (str "quicknote") true true])
    (str "control+g") (str "control+keyg") (str "quicknote") .toggleQuicknote
    (by decide) (by decide) (by decide) (by decide)

/-- C6 (counterexample): the normalizer is not idempotent on all
strings: one pass turns "kkeyey" into "key" (removing the inner "key"
occurrence creates a new one), and a second pass erases it. -/
theorem C6_counterexample :
    normalizeShortcut (normalizeShortcut (str "kkeyey")) ≠ normalizeShortcut (str "kkeyey") := by
  decide

/-- C6 (amended): the normalizer is idempotent on every string whose
normalized form no longer contains any of the substrings
"commandorcontrol", "key", "cmd+", "command+" that the replacement chain
rewrites — in particular on all ordinary shortcut spellings — but not on
every input string. -/
theorem C6_normalize_idempotent_on_clean (s : Str)
    (h1 : containsStr (normalizeShortcut s) (str "commandorcontrol") = false)
    (h2 : containsStr (normalizeShortcut s) (str "key") = false)
    (h3 : containsStr (normalizeShortcut s) (str "cmd+") = false)
    (h4 : containsStr (normalizeShortcut s) (str "command+") = false) :
    normalizeShortcut (normalizeShortcut s) = normalizeShortcut s :=
  normalizeShortcut_idem_of h1 h2 h3 h4

/-- C6 (witness): idempotence at the spec's own example
"Shift+Control+G". -/
theorem C6_witness :
    normalizeShortcut (normalizeShortcut (str "Shift+Control+G"))
      = normalizeShortcut (str "Shift+Control+G") :=
  C6_normalize_idempotent_on_clean (str "Shift+Control+G")
    (by decide) (by decide) (by decide) (by decide)

/-- C7 (confirmed): the window toggle three-state protocol: toggling an
absent window creates it visible and focused; toggling a visible window
hides it; toggling a hidden window shows and focuses it; a failed
visibility query is treated as hidden (the window is shown and focused);
and three consecutive toggles from the absent state produce visible,
then hidden, then visible. -/
theorem C7_toggle_three_state :
    toggle_quicknote_window none false = some ⟨true, true⟩ ∧
    (∀ f : Bool, toggle_quicknote_window (some ⟨true, f⟩) false = some ⟨false, f⟩) ∧
    (∀ f : Bool, toggle_quicknote_window (some ⟨false, f⟩) false = some ⟨true, true⟩) ∧
    (∀ w : WindowState, toggle_quicknote_window (some w) true = some ⟨true, true⟩) ∧
    toggle_quicknote_window
      (toggle_quicknote_window (toggle_quicknote_window none false) false) false
      = some ⟨true, true⟩ ∧
    toggle_quicknote_window (toggle_quicknote_window none false) false = some ⟨false, true⟩ := by
  refine ⟨rfl, ?_, ?_, ?_, rfl, rfl⟩
  · intro f
    rfl
  · intro f
    rfl
  · intro w
    obtain ⟨v, f⟩ := w
    rfl

/-- C8 (confirmed): resizing an existing quicknote or quickai window
sets the fixed width 600 and an effective height clamped into
[100, 600]; out-of-range requests are clamped, never rejected; in
particular a request of 50 yields 100 and a request of 900 yields
600. -/
theorem C8_resize_clamps (w : WindowState) (h : ℚ) :
    resize_quicknote_window (some w) h = some (600, min (max h 100) 600) ∧
    resize_quickai_window (some w) h = some (600, min (max h 100) 600) ∧
    100 ≤ min (max h 100) 600 ∧ min (max h 100) 600 ≤ 600 ∧
    resize_quicknote_window (some w) 50 = some (600, 100) ∧
    resize_quicknote_window (some w) 900 = some (600, 600) := by
  refine ⟨rfl, rfl, ?_, min_le_right _ _, ?_, ?_⟩
  · exact le_min (le_max_right _ _) (by norm_num)
  · rw [resize_quicknote_window]
    norm_num
  · rw [resize_quicknote_window]
    norm_num

/-- C9 (confirmed): after every sequence of operations (register,
unregister, remember, default setup, text-selection setup), every key of
the process-wide shortcut registry equals its own lowercase form: all
inserting operations lowercase the key first, and removal cannot break
the invariant. -/
theorem C9_registry_keys_lowercase (ops : List Op) (k : Str)
    (h : k ∈ keysOf (get_registered_shortcuts (runOps ops))) :
    lowerStr k = k :=
  (stInv_runOps ops).2 k h

/-- C9 (witness): the invariant applied to the key remembered by the
raw `register_shortcut_command` call. -/
theorem C9_witness :
    str "control+backquote" ∈
      keysOf (get_registered_shortcuts
        (runOps [.remember (str "Control+Backquote") (str "text-selection")])) ∧
    lowerStr (str "control+backquote") = str "control+backquote" :=
  ⟨by decide,
   C9_registry_keys_lowercase [.remember (str "Control+Backquote") (str "text-selection")]
     (str "control+backquote") (by decide)⟩

/-- C10 (confirmed): toggling the main editor window: visible and
focused hides it without emitting; visible but not focused focuses it
and emits "quicknote-triggered" instead of hiding; a failed focus query
counts as not focused; hidden — or a failed visibility query — shows and
focuses it with the event emitted; so the window is hidden by toggle
only when it was visible and focused. -/
theorem C10_editor_toggle :
    toggle_editor_window (some ⟨true, true⟩) false false = (some ⟨false, true⟩, true, false) ∧
    toggle_editor_window (some ⟨true, false⟩) false false = (some ⟨true, true⟩, true, true) ∧
    (∀ f : Bool, toggle_editor_window (some ⟨true, f⟩) false true = (some ⟨true, true⟩, true, true)) ∧
    (∀ f ff : Bool, toggle_editor_window (some ⟨false, f⟩) false ff = (some ⟨true, true⟩, true, true)) ∧
    (∀ (w : WindowState) (ff : Bool),
      toggle_editor_window (some w) true ff = (some ⟨true, true⟩, true, true)) := by
  refine ⟨rfl, rfl, ?_, ?_, ?_⟩
  · intro f
    rfl
  · intro f ff
    rfl
  · intro w ff
    obtain ⟨v, f⟩ := w
    rfl
